import Mathlib

/-!
Shallow embedding of the binary serialization framework of
`sc2-map-dependencies` (`src/structures/fields.py` and the `Serializer`
machinery of `src/main.py`), together with proofs about the claims of the
specification.

Modelling conventions:

* Python `bytes` are modelled as `List Nat` (each entry a byte value).
* Text values are modelled by their cp437 byte sequences.  cp437 is a
  single-byte code page in which every byte 0..255 decodes to a distinct
  character and re-encodes to the same byte (a total bijection), so
  `str.decode('cp437')` / `str.encode('cp437')` are modelled as the identity
  on byte lists, and reversing the character sequence of a decoded string
  (`ReverseFixedStringField`) corresponds to reversing the byte list.
* Exceptions (`ValueError` from tuple unpacking in `ZStringField`,
  `OverflowError` from `int.to_bytes`, `TypeError`/`KeyError` during
  serialization) are modelled by `Option`: `none` means the Python code
  raises.
* The in-place mutation `self.element_field.length = length` performed by
  `EncodedLengthField.deserialize` is modelled by threading field state:
  `deserialize` returns, next to the decoded value and the consumed byte
  count, the post-call state of the field object tree.  The returned field
  is packaged with a proof that the mutation-insensitive size `fsize` is
  unchanged; this invariant is what makes the recursion terminating.
* Every `Serializer` subclass collects its `Field` class attributes into a
  `dict` preserving declaration order; a schema is therefore modelled as an
  ordered list of (name, field) pairs (`Fields`).
* In every schema of the repository the length field of an
  `EncodedLengthField` is a `UInt16Field`/`UInt32Field`, so the value
  assigned into `element_field.length` is an `int`; the model requires the
  decoded length value to be a natural number (`Value.vNat`) and fails
  otherwise.  (In Python a non-`int` assignment would only raise later, at
  the first use of the slot.)
-/

namespace SC2Map

mutual
/-- The field descriptor classes of `src/structures/fields.py`.

* `byteArray length magic` is `ByteArrayField(length, validator)`; the one
  validator shape used in the repository is `file_magic_validator(magic)`,
  so the validator slot is modelled by the optional expected magic bytes.
* `uintN length` covers `UInt16Field` (`length = 2`) and `UInt32Field`
  (`length = 4`, a subclass only overriding `length`).
* `zstring` is `ZStringField`.
* `dynString length` covers `DynamicStringField` (class attribute
  `length = 0`) and `FixedStringField` (constructor-assigned length); the
  two classes share `deserialize`/`serialize`.
* `revString length` is `ReverseFixedStringField`.
* `dynList elem length` is `DynamicListField`.
* `encodedLength lengthF elem` is `EncodedLengthField`.
* `serializer fields` is `SerializerField` wrapping a `Serializer` whose
  ordered field dict is `fields`. -/
inductive Field where
  | byteArray (length : Nat) (magic : Option (List Nat))
  | uintN (length : Nat)
  | zstring
  | dynString (length : Nat)
  | revString (length : Nat)
  | dynList (elem : Field) (length : Nat)
  | encodedLength (lengthF : Field) (elem : Field)
  | serializer (fields : Fields)
  deriving DecidableEq

/-- An ordered association of field names to field descriptors: the `fields`
dict collected by `SerializerMeta` from a `Serializer` class body. -/
inductive Fields where
  | nil
  | cons (name : String) (f : Field) (rest : Fields)
  deriving DecidableEq
end

/-- The Python values flowing through the framework: `bytes` objects,
non-negative `int`s, text strings (as cp437 byte sequences), lists, and the
named-attribute dicts produced by `Serializer.deserialize`. -/
inductive Value where
  | vBytes (bs : List Nat)
  | vNat (n : Nat)
  | vStr (s : List Nat)
  | vList (elems : List Value)
  | vRecord (attrs : List (String × Value))

mutual
/-- Mutation-insensitive size of a field tree: counts constructors, ignoring
the numeric `length` slots (which in-place mutation may change). -/
def fsize : Field → Nat
  | .byteArray _ _ => 1
  | .uintN _ => 1
  | .zstring => 1
  | .dynString _ => 1
  | .revString _ => 1
  | .dynList e _ => 1 + fsize e
  | .encodedLength lf ef => 1 + fsize lf + fsize ef
  | .serializer fs => 1 + fsizeFields fs

def fsizeFields : Fields → Nat
  | .nil => 0
  | .cons _ f rest => 1 + fsize f + fsizeFields rest
end

/-- The assignment `field.length = n` (`EncodedLengthField.deserialize`,
`src/structures/fields.py` line 117).  For classes without a `length`
attribute read anywhere (`ZStringField`, `EncodedLengthField`,
`SerializerField`) Python would create a fresh, never-read instance
attribute; that is modelled as the identity. -/
def setLength : Field → Nat → Field
  | .byteArray _ m, n => .byteArray n m
  | .uintN _, n => .uintN n
  | .zstring, _ => .zstring
  | .dynString _, n => .dynString n
  | .revString _, n => .revString n
  | .dynList e _, n => .dynList e n
  | .encodedLength lf ef, _ => .encodedLength lf ef
  | .serializer fs, _ => .serializer fs

/-- Reading the `length` attribute of a field object; `none` for the classes
that do not have one. -/
def getLength : Field → Option Nat
  | .byteArray n _ => some n
  | .uintN n => some n
  | .zstring => none
  | .dynString n => some n
  | .revString n => some n
  | .dynList _ n => some n
  | .encodedLength _ _ => none
  | .serializer _ => none

attribute [simp] fsize fsizeFields

@[simp] theorem fsize_setLength (f : Field) (n : Nat) :
    fsize (setLength f n) = fsize f := by
  cases f <;> rfl

/-- `int.from_bytes(data, byteorder='little', signed=False)`: the
little-endian value of a byte list (defined for lists of any length,
including the empty list, exactly as in Python). -/
def fromBytesLE : List Nat → Nat
  | [] => 0
  | b :: bs => b + 256 * fromBytesLE bs

/-- The `n` little-endian base-256 digits of `v`. -/
def natToBytesLE : Nat → Nat → List Nat
  | 0, _ => []
  | n + 1, v => (v % 256) :: natToBytesLE n (v / 256)

/-- `value.to_bytes(length=n, byteorder='little', signed=False)`: produces
the `n` little-endian bytes of `v`, raising `OverflowError` (modelled as
`none`) when `v` does not fit in `n` bytes. -/
def toBytesLE (n v : Nat) : Option (List Nat) :=
  if v < 256 ^ n then some (natToBytesLE n v) else none

/-- `len(obj)` for the values that support it; `len` of an `int` raises
`TypeError`, modelled as `none`. -/
def valueLen : Value → Option Nat
  | .vBytes bs => some bs.length
  | .vNat _ => none
  | .vStr s => some s.length
  | .vList vs => some vs.length
  | .vRecord attrs => some attrs.length

/-- `file_magic_validator(magic)` (`src/structures/fields.py` lines
143-147): the returned closure raises `ValidationError` exactly when the
value differs from `magic`.  `true` means the validator passes. -/
def file_magic_validator (magic : List Nat) (value : Value) : Bool :=
  match value with
  | .vBytes bs => bs == magic
  | _ => false

/-- `Field.validate` (`src/structures/fields.py` lines 10-11): runs the
field's validator if there is one.  In this repository validators appear
only on `ByteArrayField` (the two magic fields of
`DocumentHeaderSerializer`), always built by `file_magic_validator`.
`true` means no exception is raised. -/
def validate : Field → Value → Bool
  | .byteArray _ (some magic), v => file_magic_validator magic v
  | _, _ => true

mutual
/-- `deserialize` of each field class (`src/structures/fields.py`) and the
dispatch through them.  Given the field object and the byte buffer, returns
the decoded value, the consumed byte count, and the post-call state of the
field object tree (packaged with the `fsize`-preservation fact); `none`
models a raised exception.  The unused `attributes` dict parameter of the
Python signatures is omitted (no `deserialize` in the repository reads it). -/
def deserialize : (f : Field) → List Nat → Option (Value × Nat × {g : Field // fsize g = fsize f})
  | .byteArray n m, d => some (.vBytes (d.take n), n, ⟨.byteArray n m, rfl⟩)
  | .uintN n, d => some (.vNat (fromBytesLE (d.take n)), n, ⟨.uintN n, rfl⟩)
  | .zstring, d =>
    if (0 : Nat) ∈ d then
      some (.vStr (d.takeWhile (fun b => b != 0)),
            (d.takeWhile (fun b => b != 0)).length + 1, ⟨.zstring, rfl⟩)
    else none
  | .dynString n, d => some (.vStr (d.take n), (d.take n).length, ⟨.dynString n, rfl⟩)
  | .revString n, d =>
    some (.vStr (d.take n).reverse, (d.take n).length, ⟨.revString n, rfl⟩)
  | .dynList e k, d =>
    match deserializeList e k d with
    | none => none
    | some (vs, n, e') => some (.vList vs, n, ⟨.dynList e'.1 k, by simp [fsize, e'.2]⟩)
  | .encodedLength lf ef, d =>
    match deserialize lf d with
    | none => none
    | some (lv, w, lf') =>
      match lv with
      | .vNat L =>
        match deserialize (setLength ef L) (List.drop w d) with
        | none => none
        | some (v, m, ef') =>
          some (v, w + m,
            ⟨.encodedLength lf'.1 ef'.1, by simp [fsize, lf'.2, ef'.2, fsize_setLength]⟩)
      | _ => none
  | .serializer fs, d =>
    match deserializeFields fs d with
    | none => none
    | some (attrs, n, fs') =>
      some (.vRecord attrs, n, ⟨.serializer fs'.1, by simp [fsize, fs'.2]⟩)
termination_by f _ => (fsize f, 1, 0)

/-- The loop body of `DynamicListField.deserialize` (`src/structures/fields.py`
lines 91-100): `count` iterations of element decoding against the remaining
buffer, accumulating elements and consumed bytes.  Each iteration uses the
element-field object as left by the previous iteration (the Python loop
repeatedly calls `self.element_field.deserialize` on the one shared object). -/
def deserializeList : (e : Field) → Nat → List Nat → Option (List Value × Nat × {g : Field // fsize g = fsize e})
  | e, 0, _ => some ([], 0, ⟨e, rfl⟩)
  | e, k + 1, d =>
    match deserialize e d with
    | none => none
    | some (v, m, e') =>
      match deserializeList e'.1 k (List.drop m d) with
      | none => none
      | some (vs, n, e'') => some (v :: vs, m + n, ⟨e''.1, e''.2.trans e'.2⟩)
termination_by e k _ => (fsize e, 2, k)
decreasing_by
  all_goals try rw [e'.2]
  all_goals decreasing_tactic

/-- `Serializer.deserialize` (`src/main.py` lines 152-158): walk the fields
in declaration order, decode each against `data[offset:]`, record the value
under the field's name, and advance the offset.  Note that it never invokes
`Field.validate`. -/
def deserializeFields : (fs : Fields) → List Nat → Option (List (String × Value) × Nat × {gs : Fields // fsizeFields gs = fsizeFields fs})
  | .nil, _ => some ([], 0, ⟨.nil, rfl⟩)
  | .cons name f rest, d =>
    match deserialize f d with
    | none => none
    | some (v, m, f') =>
      match deserializeFields rest (List.drop m d) with
      | none => none
      | some (attrs, n, rest') =>
        some ((name, v) :: attrs, m + n,
          ⟨.cons name f'.1 rest'.1, by simp [fsizeFields, f'.2, rest'.2]⟩)
termination_by fs _ => (fsizeFields fs, 0, 0)
end

mutual
/-- `serialize` of each field class (`src/structures/fields.py`).  `none`
models a raised exception (`OverflowError` from `int.to_bytes`, `TypeError`
from `len` of an `int`, `KeyError` from a missing record entry, and type
mismatches between the value and what the field's code requires, which in
Python surface at the method call or at the enclosing bytes
concatenation).  Serialization reads no `length` slot except
`ByteArrayField`'s and `UInt16Field`/`UInt32Field`'s own, and never writes
any attribute. -/
def serialize : Field → Value → Option (List Nat)
  | .byteArray n _, .vBytes bs => some (bs.take n)
  | .uintN n, .vNat v => toBytesLE n v
  | .zstring, .vStr s => some (s ++ [0])
  | .dynString _, .vStr s => some s
  | .revString _, .vStr s => some s.reverse
  | .dynList e _, .vList vs => serializeList e vs
  | .encodedLength lf ef, v =>
    match valueLen v with
    | none => none
    | some L =>
      match serialize lf (.vNat L) with
      | none => none
      | some a =>
        match serialize ef v with
        | none => none
        | some b => some (a ++ b)
  | .serializer fs, .vRecord attrs => serializeFields fs attrs
  | _, _ => none
termination_by f _ => (fsize f, 1, 0)

/-- The loop of `DynamicListField.serialize` (`src/structures/fields.py`
lines 102-106): concatenate the element field's encoding of every element of
the input list; the field's `length` slot is not consulted. -/
def serializeList : Field → List Value → Option (List Nat)
  | _, [] => some []
  | e, v :: vs =>
    match serialize e v with
    | none => none
    | some a =>
      match serializeList e vs with
      | none => none
      | some b => some (a ++ b)
termination_by e vs => (fsize e, 2, vs.length)

/-- `Serializer.serialize` (`src/main.py` lines 160-164): walk the fields in
declaration order and concatenate each field's encoding of `attrs[name]`. -/
def serializeFields : Fields → List (String × Value) → Option (List Nat)
  | .nil, _ => some []
  | .cons name f rest, attrs =>
    match List.lookup name attrs with
    | none => none
    | some v =>
      match serialize f v with
      | none => none
      | some a =>
        match serializeFields rest attrs with
        | none => none
        | some b => some (a ++ b)
termination_by fs _ => (fsizeFields fs, 0, 0)
end

/-- b'H2CS' as bytes. -/
def magicH2CS : List Nat := [72, 50, 67, 83]

/-- b'2S\x00\x00' as bytes. -/
def magic2S : List Nat := [50, 83, 0, 0]

/-- `DocumentHeaderAttributeSerializer` (`src/main.py` lines 186-189). -/
def DocumentHeaderAttributeSerializer : Fields :=
  .cons "key" (.encodedLength (.uintN 2) (.dynString 0))
  (.cons "locale" (.revString 4)
  (.cons "value" (.encodedLength (.uintN 2) (.dynString 0)) .nil))

/-- `DocumentHeaderSerializer` (`src/main.py` lines 192-210). -/
def DocumentHeaderSerializer : Fields :=
  .cons "map_magic" (.byteArray 4 (some magicH2CS))
  (.cons "unk1" (.byteArray 4 none)
  (.cons "game_magic" (.byteArray 4 (some magic2S))
  (.cons "unk2" (.byteArray 4 none)
  (.cons "unk3" (.byteArray 8 none)
  (.cons "unk4" (.byteArray 20 none)
  (.cons "dependencies" (.encodedLength (.uintN 4) (.dynList .zstring 0))
  (.cons "attribs" (.encodedLength (.uintN 4)
      (.dynList (.serializer DocumentHeaderAttributeSerializer) 0)) .nil)))))))

/-- The element shapes wrapped by `EncodedLengthField` in this repository:
fields whose decoded value has exactly the prefixed length and whose
`serialize` does not consult the (mutated) `length`/count slot.  Every
`EncodedLengthField` in the repository wraps a `DynamicStringField` or a
`DynamicListField`. -/
def goodELElem : Field → Bool
  | .dynString _ => true
  | .revString _ => true
  | .dynList _ _ => true
  | _ => false

/-- The names of a schema's fields, in declaration order. -/
def fieldNames : Fields → List String
  | .nil => []
  | .cons name _ rest => name :: fieldNames rest

/-- Distinctness of field names: automatic for real schemas, whose fields
are collected from a Python class body into a `dict`. -/
def namesNodup : Fields → Bool
  | .nil => true
  | .cons name _ rest => !(fieldNames rest).contains name && namesNodup rest

mutual
/-- The buffer supplies every read of a decode in full: each fixed-width
read has its full declared width available, every length-prefixed element is
of the repository's shapes (`goodELElem`), and schema field names are
distinct.  This is the hypothesis under which decoding consumes exactly the
bytes that re-encoding reproduces. -/
def adequate : Field → List Nat → Bool
  | .byteArray n _, d => n ≤ d.length
  | .uintN n, d => n ≤ d.length
  | .zstring, _ => true
  | .dynString n, d => n ≤ d.length
  | .revString n, d => n ≤ d.length
  | .dynList e k, d => adequateList e k d
  | .encodedLength lf ef, d =>
    goodELElem ef && adequate lf d &&
      (match deserialize lf d with
       | some (.vNat L, w, _) => adequate (setLength ef L) (List.drop w d)
       | _ => false)
  | .serializer fs, d => namesNodup fs && adequateFields fs d
termination_by f _ => (fsize f, 1, 0)

/-- `adequate` for each iteration of the `DynamicListField.deserialize`
loop, threading the element-field state exactly as `deserializeList` does. -/
def adequateList : Field → Nat → List Nat → Bool
  | _, 0, _ => true
  | e, k + 1, d =>
    adequate e d &&
      (match deserialize e d with
       | some (_, m, e') => adequateList e'.1 k (List.drop m d)
       | none => false)
termination_by e k _ => (fsize e, 2, k)
decreasing_by
  all_goals try rw [e'.2]
  all_goals decreasing_tactic

/-- `adequate` across the fields of a schema. -/
def adequateFields : Fields → List Nat → Bool
  | .nil, _ => true
  | .cons _ f rest, d =>
    adequate f d &&
      (match deserialize f d with
       | some (_, m, _) => adequateFields rest (List.drop m d)
       | none => false)
termination_by fs _ => (fsizeFields fs, 0, 0)
end

mutual
/-- Serialization-relevant normal form of a field tree: zeroes the
`length`/count slots that `serialize` never reads (those of
`DynamicStringField`, `ReverseFixedStringField` and `DynamicListField` —
the only slots `EncodedLengthField.deserialize` mutates in the repository's
schemas).  Two field states with the same normal form serialize
identically. -/
def serNorm : Field → Field
  | .byteArray n m => .byteArray n m
  | .uintN n => .uintN n
  | .zstring => .zstring
  | .dynString _ => .dynString 0
  | .revString _ => .revString 0
  | .dynList e _ => .dynList (serNorm e) 0
  | .encodedLength lf ef => .encodedLength (serNorm lf) (serNorm ef)
  | .serializer fs => .serializer (serNormFields fs)

def serNormFields : Fields → Fields
  | .nil => .nil
  | .cons name f rest => .cons name (serNorm f) (serNormFields rest)
end

mutual
/-- `serialize` reads none of the slots that `serNorm` erases. -/
theorem serialize_serNorm : (f : Field) → (v : Value) →
    serialize (serNorm f) v = serialize f v
  | .byteArray n m, v => by cases v <;> simp [serNorm, serialize]
  | .uintN n, v => by cases v <;> simp [serNorm, serialize]
  | .zstring, v => by cases v <;> simp [serNorm, serialize]
  | .dynString a, v => by cases v <;> simp [serNorm, serialize]
  | .revString a, v => by cases v <;> simp [serNorm, serialize]
  | .dynList e a, v => by
    cases v <;> simp [serNorm, serialize]
    exact serializeList_serNorm e _
  | .encodedLength lf ef, v => by
    cases h : valueLen v with
    | none => simp [serNorm, serialize, h]
    | some L =>
      simp [serNorm, serialize, h, serialize_serNorm lf (.vNat L), serialize_serNorm ef v]
  | .serializer fs, v => by
    cases v <;> simp [serNorm, serialize]
    exact serializeFields_serNorm fs _
termination_by f _ => (fsize f, 1, 0)

theorem serializeList_serNorm : (e : Field) → (vs : List Value) →
    serializeList (serNorm e) vs = serializeList e vs
  | e, [] => by simp [serializeList]
  | e, v :: vs => by
    simp [serializeList, serialize_serNorm e v, serializeList_serNorm e vs]
termination_by e vs => (fsize e, 2, vs.length)

theorem serializeFields_serNorm : (fs : Fields) → (attrs : List (String × Value)) →
    serializeFields (serNormFields fs) attrs = serializeFields fs attrs
  | .nil, _ => by simp [serNormFields, serializeFields]
  | .cons name f rest, attrs => by
    cases h : List.lookup name attrs with
    | none => simp [serNormFields, serializeFields, h]
    | some v =>
      simp [serNormFields, serializeFields, h, serialize_serNorm f v,
        serializeFields_serNorm rest attrs]
termination_by fs _ => (fsizeFields fs, 0, 0)
end

theorem natToBytesLE_length : ∀ (n v : Nat), (natToBytesLE n v).length = n
  | 0, _ => rfl
  | n + 1, v => by simp [natToBytesLE, natToBytesLE_length n (v / 256)]

theorem fromBytesLE_lt : ∀ (bs : List Nat), (∀ b ∈ bs, b < 256) →
    fromBytesLE bs < 256 ^ bs.length
  | [], _ => by simp [fromBytesLE]
  | b :: bs, h => by
    have hb : b < 256 := h b (by simp)
    have ih := fromBytesLE_lt bs (fun x hx => h x (by simp [hx]))
    simp only [fromBytesLE, List.length_cons, pow_succ]
    calc b + 256 * fromBytesLE bs
        ≤ 255 + 256 * fromBytesLE bs := by omega
      _ < 256 * (fromBytesLE bs + 1) := by omega
      _ ≤ 256 * 256 ^ bs.length := by
          have : fromBytesLE bs + 1 ≤ 256 ^ bs.length := ih
          exact Nat.mul_le_mul_left 256 this
      _ = 256 ^ bs.length * 256 := by ring

theorem natToBytesLE_fromBytesLE : ∀ (bs : List Nat), (∀ b ∈ bs, b < 256) →
    natToBytesLE bs.length (fromBytesLE bs) = bs
  | [], _ => rfl
  | b :: bs, h => by
    have hb : b < 256 := h b (by simp)
    have ih := natToBytesLE_fromBytesLE bs (fun x hx => h x (by simp [hx]))
    have hmod : (b + 256 * fromBytesLE bs) % 256 = b := by omega
    have hdiv : (b + 256 * fromBytesLE bs) / 256 = fromBytesLE bs := by omega
    simp [natToBytesLE, fromBytesLE, hmod, hdiv, ih]

/-- Round trip through the little-endian byte codec, for genuine byte
lists. -/
theorem toBytesLE_fromBytesLE (bs : List Nat) (h : ∀ b ∈ bs, b < 256) :
    toBytesLE bs.length (fromBytesLE bs) = some bs := by
  simp [toBytesLE, fromBytesLE_lt bs h, natToBytesLE_fromBytesLE bs h]

theorem fromBytesLE_natToBytesLE : ∀ (n v : Nat), v < 256 ^ n →
    fromBytesLE (natToBytesLE n v) = v
  | 0, v, h => by
    simp [pow_zero] at h
    simp [natToBytesLE, fromBytesLE, h]
  | n + 1, v, h => by
    have hlt : v / 256 < 256 ^ n := by
      rw [Nat.div_lt_iff_lt_mul (by norm_num)]
      calc v < 256 ^ (n + 1) := h
        _ = 256 ^ n * 256 := by ring
    have ih := fromBytesLE_natToBytesLE n (v / 256) hlt
    simp [natToBytesLE, fromBytesLE, ih]
    omega

/-- `fromBytesLE` is the positional little-endian interpretation. -/
theorem fromBytesLE_eq_sum : ∀ (bs : List Nat),
    fromBytesLE bs = ∑ i ∈ Finset.range bs.length, bs.getD i 0 * 256 ^ i
  | [] => by simp [fromBytesLE]
  | b :: bs => by
    rw [fromBytesLE, fromBytesLE_eq_sum bs]
    rw [List.length_cons, Finset.sum_range_succ']
    simp only [List.getD_cons_succ, List.getD_cons_zero, pow_zero, mul_one]
    rw [Finset.mul_sum]
    have hcongr : ∀ i ∈ Finset.range bs.length,
        bs.getD i 0 * 256 ^ (i + 1) = 256 * (bs.getD i 0 * 256 ^ i) := by
      intro i _
      ring
    rw [Finset.sum_congr rfl hcongr]
    omega

theorem mem_zstringPre (d : List Nat) : ∀ b ∈ d.takeWhile (fun x => x != 0), b ≠ 0 := by
  intro b hb
  simpa using List.mem_takeWhile_imp hb

/-- The consumed prefix of a null-terminated string is the bytes strictly
before the first zero byte, followed by the zero terminator. -/
theorem zstring_take : ∀ (d : List Nat), 0 ∈ d →
    d.take ((d.takeWhile (fun x => x != 0)).length + 1) =
      d.takeWhile (fun x => x != 0) ++ [0]
  | b :: t, h => by
    by_cases hb : b = 0
    · subst hb
      simp [List.takeWhile]
    · have ht : 0 ∈ t := by
        rcases List.mem_cons.mp h with h0 | h0
        · omega
        · exact h0
      have ih := zstring_take t ht
      have hbb : (b != 0) = true := by simpa using hb
      simp [List.takeWhile_cons, hbb, List.take_succ_cons, ih]

theorem zstring_length_le : ∀ (d : List Nat), 0 ∈ d →
    (d.takeWhile (fun x => x != 0)).length + 1 ≤ d.length
  | b :: t, h => by
    by_cases hb : b = 0
    · subst hb
      simp [List.takeWhile]
    · have ht : 0 ∈ t := by
        rcases List.mem_cons.mp h with h0 | h0
        · omega
        · exact h0
      have ih := zstring_length_le t ht
      have hbb : (b != 0) = true := by simpa using hb
      simp only [List.takeWhile_cons, hbb, List.length_cons]
      simpa using ih

/-- Looking a key up past an association-list segment that does not contain
it. -/
theorem lookup_append_of_none {β : Type} (nm : String) :
    ∀ (pre l : List (String × β)), List.lookup nm pre = none →
      List.lookup nm (pre ++ l) = List.lookup nm l
  | [], _, _ => by simp
  | (a, b) :: pre, l, h => by
    by_cases ha : nm == a
    · simp [List.lookup, ha] at h
    · simp only [List.lookup, ha, List.cons_append] at h ⊢
      exact lookup_append_of_none nm pre l h

/-- `DynamicListField.deserialize` returns one element per loop iteration. -/
theorem deserializeList_length : ∀ (k : Nat) (e : Field) (d : List Nat)
    (vs : List Value) (n : Nat) (g : {g : Field // fsize g = fsize e}),
    deserializeList e k d = some (vs, n, g) → vs.length = k
  | 0, e, d, vs, n, g, h => by
    simp [deserializeList] at h
    simp [h.1]
  | k + 1, e, d, vs, n, g, h => by
    rw [deserializeList] at h
    cases h1 : deserialize e d with
    | none => simp [h1] at h
    | some r =>
      obtain ⟨v, m, e'⟩ := r
      cases h2 : deserializeList e'.1 k (List.drop m d) with
      | none => simp [h1, h2] at h
      | some r2 =>
        obtain ⟨vs2, n2, e''⟩ := r2
        have hlen := deserializeList_length k e'.1 (List.drop m d) vs2 n2 e'' h2
        have hvs : v :: vs2 = vs := by
          simp only [h1, h2, Option.some.injEq, Prod.mk.injEq] at h
          exact h.1
        rw [← hvs]
        simp [hlen]

theorem serializeList_congr {a b : Field} (h : serNorm a = serNorm b)
    (vs : List Value) : serializeList a vs = serializeList b vs := by
  rw [← serializeList_serNorm a, h, serializeList_serNorm b]

theorem serNorm_setLength_good {f : Field} (h : goodELElem f = true) (L : Nat) :
    serNorm (setLength f L) = serNorm f := by
  cases f <;> simp [goodELElem] at h <;> simp [setLength, serNorm]

theorem serialize_setLength_good {f : Field} (h : goodELElem f = true) (L : Nat)
    (v : Value) : serialize (setLength f L) v = serialize f v := by
  rw [← serialize_serNorm (setLength f L) v, serNorm_setLength_good h, serialize_serNorm]

/-- A prefix-governed element of the repository's shapes decodes to a value
whose `len` is exactly the assigned length. -/
theorem el_valueLen {ef : Field} (hg : goodELElem ef = true) {L : Nat} {d : List Nat}
    (ha : adequate (setLength ef L) d = true) {v : Value} {m : Nat}
    {g : {g : Field // fsize g = fsize (setLength ef L)}}
    (hde : deserialize (setLength ef L) d = some (v, m, g)) : valueLen v = some L := by
  cases ef <;> simp [goodELElem] at hg
  case dynString a =>
    simp only [setLength] at ha hde
    simp only [deserialize, Option.some.injEq, Prod.mk.injEq] at hde
    simp only [adequate, decide_eq_true_eq] at ha
    rw [← hde.1]
    simp [valueLen, ha]
  case revString a =>
    simp only [setLength] at ha hde
    simp only [deserialize, Option.some.injEq, Prod.mk.injEq] at hde
    simp only [adequate, decide_eq_true_eq] at ha
    rw [← hde.1]
    simp [valueLen, ha]
  case dynList e a =>
    simp only [setLength] at ha hde
    rw [deserialize] at hde
    cases hl : deserializeList e L d with
    | none => simp [hl] at hde
    | some r =>
      obtain ⟨vs, n2, g'⟩ := r
      have hvs : Value.vList vs = v := by
        simp only [hl, Option.some.injEq, Prod.mk.injEq] at hde
        exact hde.1
      have := deserializeList_length L e d vs n2 g' hl
      rw [← hvs]
      simp [valueLen, this]

/-- The induction statement for single fields: on an adequate buffer, a
successful decode leaves the field state serialization-equivalent, consumes
no more than the buffer, and re-encodes (through the pre-decode state) to
exactly the consumed prefix. -/
def RTF (f : Field) (d : List Nat) : Prop :=
  (∀ b ∈ d, b < 256) → adequate f d = true →
    ∀ (v : Value) (n : Nat) (g : {g : Field // fsize g = fsize f}),
      deserialize f d = some (v, n, g) →
        serNorm g.1 = serNorm f ∧ n ≤ d.length ∧ serialize f v = some (List.take n d)

/-- The induction statement for schemas, generalized over an already-looked
up record segment `pre` so the name-lookup recursion goes through. -/
def RTFs (fs : Fields) (d : List Nat) : Prop :=
  (∀ b ∈ d, b < 256) → namesNodup fs = true → adequateFields fs d = true →
    ∀ (attrs : List (String × Value)) (n : Nat)
      (gs : {gs : Fields // fsizeFields gs = fsizeFields fs}),
      deserializeFields fs d = some (attrs, n, gs) →
        serNormFields gs.1 = serNormFields fs ∧ n ≤ d.length ∧
        attrs.map Prod.fst = fieldNames fs ∧
        ∀ pre : List (String × Value),
          (∀ nm ∈ fieldNames fs, List.lookup nm pre = none) →
          serializeFields fs (pre ++ attrs) = some (List.take n d)

/-- The induction statement for list iterations. -/
def RTL (e : Field) (k : Nat) (d : List Nat) : Prop :=
  (∀ b ∈ d, b < 256) → adequateList e k d = true →
    ∀ (vs : List Value) (n : Nat) (g : {g : Field // fsize g = fsize e}),
      deserializeList e k d = some (vs, n, g) →
        serNorm g.1 = serNorm e ∧ n ≤ d.length ∧ serializeList e vs = some (List.take n d)

theorem rt_byteArray (n : Nat) (m : Option (List Nat)) (d : List Nat) :
    RTF (.byteArray n m) d := by
  intro hb ha v n' g hde
  simp only [deserialize, Option.some.injEq, Prod.mk.injEq] at hde
  obtain ⟨hv, hn, hg⟩ := hde
  simp only [adequate, decide_eq_true_eq] at ha
  subst hv
  subst hn
  refine ⟨?_, ha, ?_⟩
  · rw [← hg]
  · simp [serialize, List.take_take]

theorem rt_uintN (n : Nat) (d : List Nat) : RTF (.uintN n) d := by
  intro hb ha v n' g hde
  simp only [deserialize, Option.some.injEq, Prod.mk.injEq] at hde
  obtain ⟨hv, hn, hg⟩ := hde
  simp only [adequate, decide_eq_true_eq] at ha
  subst hv
  subst hn
  have hlen : (List.take n d).length = n := by
    simp [List.length_take, ha]
  have hbytes : ∀ b ∈ List.take n d, b < 256 :=
    fun b hbm => hb b (List.take_subset n d hbm)
  refine ⟨?_, ha, ?_⟩
  · rw [← hg]
  · have := toBytesLE_fromBytesLE (List.take n d) hbytes
    rw [hlen] at this
    simp [serialize, this]

theorem rt_zstring_found (d : List Nat) (h0 : (0 : Nat) ∈ d) : RTF .zstring d := by
  intro hb ha v n' g hde
  simp only [deserialize, if_pos h0, Option.some.injEq, Prod.mk.injEq] at hde
  obtain ⟨hv, hn, hg⟩ := hde
  subst hv
  subst hn
  refine ⟨?_, zstring_length_le d h0, ?_⟩
  · rw [← hg]
  · simp [serialize, zstring_take d h0]

theorem rt_zstring_missing (d : List Nat) (h0 : (0 : Nat) ∉ d) : RTF .zstring d := by
  intro hb ha v n' g hde
  simp [deserialize, if_neg h0] at hde

theorem rt_dynString (n : Nat) (d : List Nat) : RTF (.dynString n) d := by
  intro hb ha v n' g hde
  simp only [deserialize, Option.some.injEq, Prod.mk.injEq] at hde
  obtain ⟨hv, hn, hg⟩ := hde
  simp only [adequate, decide_eq_true_eq] at ha
  subst hv
  subst hn
  have hlen : (List.take n d).length = n := by
    simp [List.length_take, ha]
  refine ⟨?_, ?_, ?_⟩
  · rw [← hg]
  · omega
  · simp [serialize, hlen]

theorem rt_revString (n : Nat) (d : List Nat) : RTF (.revString n) d := by
  intro hb ha v n' g hde
  simp only [deserialize, Option.some.injEq, Prod.mk.injEq] at hde
  obtain ⟨hv, hn, hg⟩ := hde
  simp only [adequate, decide_eq_true_eq] at ha
  subst hv
  subst hn
  have hlen : (List.take n d).length = n := by
    simp [List.length_take, ha]
  refine ⟨?_, ?_, ?_⟩
  · rw [← hg]
  · omega
  · simp [serialize, hlen]

theorem rt_dynList_none (e : Field) (k : Nat) (d : List Nat)
    (hlist : deserializeList e k d = none) : RTF (.dynList e k) d := by
  intro hb ha v n g hde
  rw [deserialize] at hde
  simp [hlist] at hde

theorem rt_dynList_some (e : Field) (k : Nat) (d : List Nat) (vs : List Value)
    (n : Nat) (e' : {g : Field // fsize g = fsize e})
    (hlist : deserializeList e k d = some (vs, n, e')) (IH : RTL e k d) :
    RTF (.dynList e k) d := by
  intro hb ha v n' g hde
  rw [deserialize] at hde
  simp only [hlist, Option.some.injEq, Prod.mk.injEq] at hde
  obtain ⟨hv, hn, hg⟩ := hde
  simp only [adequate] at ha
  obtain ⟨h1, h2, h3⟩ := IH hb ha vs n e' hlist
  subst hv
  subst hn
  refine ⟨?_, h2, ?_⟩
  · rw [← hg]
    simp [serNorm, h1]
  · simp only [serialize]
    exact h3

theorem rt_EL_lf_none (lf ef : Field) (d : List Nat)
    (hlf : deserialize lf d = none) : RTF (.encodedLength lf ef) d := by
  intro hb ha v n g hde
  rw [deserialize] at hde
  simp [hlf] at hde

theorem rt_EL_elem_none (lf ef : Field) (d : List Nat) (w : Nat)
    (lf' : {g : Field // fsize g = fsize lf}) (L : Nat)
    (helem : deserialize (setLength ef L) (List.drop w d) = none)
    (hlf : deserialize lf d = some (.vNat L, w, lf')) :
    RTF (.encodedLength lf ef) d := by
  intro hb ha v n g hde
  rw [deserialize] at hde
  simp [hlf, helem] at hde

theorem rt_EL_nonnat (lf ef : Field) (d : List Nat) (lv : Value) (w : Nat)
    (lf' : {g : Field // fsize g = fsize lf})
    (hlf : deserialize lf d = some (lv, w, lf'))
    (hnot : ∀ L : Nat, lv = .vNat L → False) : RTF (.encodedLength lf ef) d := by
  intro hb ha v n g hde
  rw [deserialize] at hde
  cases lv with
  | vNat L => exact (hnot L rfl).elim
  | vBytes bs => simp [hlf] at hde
  | vStr s => simp [hlf] at hde
  | vList vs => simp [hlf] at hde
  | vRecord attrs => simp [hlf] at hde

theorem rt_EL_some (lf ef : Field) (d : List Nat) (w : Nat)
    (lf' : {g : Field // fsize g = fsize lf}) (L : Nat) (v : Value) (m : Nat)
    (ef' : {g : Field // fsize g = fsize (setLength ef L)})
    (helem : deserialize (setLength ef L) (List.drop w d) = some (v, m, ef'))
    (hlf : deserialize lf d = some (.vNat L, w, lf'))
    (IH1 : RTF lf d) (IH2 : RTF (setLength ef L) (List.drop w d)) :
    RTF (.encodedLength lf ef) d := by
  intro hb ha v0 n0 g hde
  rw [deserialize] at hde
  simp only [hlf, helem, Option.some.injEq, Prod.mk.injEq] at hde
  obtain ⟨hv, hn, hg⟩ := hde
  subst hv
  subst hn
  simp only [adequate, Bool.and_eq_true] at ha
  obtain ⟨⟨hgood, half⟩, hmatch⟩ := ha
  simp only [hlf] at hmatch
  obtain ⟨hE1, hE2, hE3⟩ := IH1 hb half (.vNat L) w lf' hlf
  have hbd : ∀ b ∈ List.drop w d, b < 256 :=
    fun b hbm => hb b (List.drop_subset w d hbm)
  obtain ⟨hF1, hF2, hF3⟩ := IH2 hbd hmatch v m ef' helem
  have hvl : valueLen v = some L := el_valueLen hgood hmatch helem
  refine ⟨?_, ?_, ?_⟩
  · rw [← hg]
    simp only [serNorm]
    rw [hE1, hF1, serNorm_setLength_good hgood]
  · have hdl : (List.drop w d).length = d.length - w := List.length_drop w d
    omega
  · have hef : serialize ef v = some (List.take m (List.drop w d)) := by
      rw [← serialize_setLength_good hgood L v]
      exact hF3
    simp only [serialize, hvl, hE3, hef]
    rw [← List.take_add]

theorem rt_serializer_none (fs : Fields) (d : List Nat)
    (h : deserializeFields fs d = none) : RTF (.serializer fs) d := by
  intro hb ha v n g hde
  rw [deserialize] at hde
  simp [h] at hde

theorem rt_serializer_some (fs : Fields) (d : List Nat)
    (attrs : List (String × Value)) (n : Nat)
    (fs' : {gs : Fields // fsizeFields gs = fsizeFields fs})
    (h : deserializeFields fs d = some (attrs, n, fs')) (IH : RTFs fs d) :
    RTF (.serializer fs) d := by
  intro hb ha v n0 g hde
  rw [deserialize] at hde
  simp only [h, Option.some.injEq, Prod.mk.injEq] at hde
  obtain ⟨hv, hn, hg⟩ := hde
  subst hv
  subst hn
  simp only [adequate, Bool.and_eq_true] at ha
  obtain ⟨hnod, haf⟩ := ha
  obtain ⟨h1, h2, h3, h4⟩ := IH hb hnod haf attrs n fs' h
  refine ⟨?_, h2, ?_⟩
  · rw [← hg]
    simp [serNorm, h1]
  · have := h4 [] (by simp)
    simpa [serialize] using this

theorem rt_fields_nil (d : List Nat) : RTFs .nil d := by
  intro hb hnod ha attrs n gs hde
  simp only [deserializeFields, Option.some.injEq, Prod.mk.injEq] at hde
  obtain ⟨h1, h2, h3⟩ := hde
  subst h1
  subst h2
  refine ⟨?_, ?_, ?_, ?_⟩
  · rw [← h3]
  · omega
  · simp [fieldNames]
  · intro pre hpre
    simp [serializeFields]

theorem rt_fields_cons_none (name : String) (f : Field) (rest : Fields)
    (d : List Nat) (hf : deserialize f d = none) : RTFs (.cons name f rest) d := by
  intro hb hnod ha attrs n gs hde
  rw [deserializeFields] at hde
  simp [hf] at hde

theorem rt_fields_cons_rest_none (name : String) (f : Field) (rest : Fields)
    (d : List Nat) (lv : Value) (w : Nat) (f' : {g : Field // fsize g = fsize f})
    (hf : deserialize f d = some (lv, w, f'))
    (hrest : deserializeFields rest (List.drop w d) = none) :
    RTFs (.cons name f rest) d := by
  intro hb hnod ha attrs n gs hde
  rw [deserializeFields] at hde
  simp [hf, hrest] at hde

theorem rt_fields_cons_some (name : String) (f : Field) (rest : Fields)
    (d : List Nat) (lv : Value) (w : Nat) (f' : {g : Field // fsize g = fsize f})
    (hf : deserialize f d = some (lv, w, f')) (attrs2 : List (String × Value))
    (n2 : Nat) (fs' : {gs : Fields // fsizeFields gs = fsizeFields rest})
    (hrest : deserializeFields rest (List.drop w d) = some (attrs2, n2, fs'))
    (IH1 : RTF f d) (IH2 : RTFs rest (List.drop w d)) :
    RTFs (.cons name f rest) d := by
  intro hb hnod haf attrs n gs hde
  rw [deserializeFields] at hde
  simp only [hf, hrest, Option.some.injEq, Prod.mk.injEq] at hde
  obtain ⟨hattrs, hn, hgs⟩ := hde
  simp only [namesNodup, Bool.and_eq_true, Bool.not_eq_true'] at hnod
  obtain ⟨hnotmem, hnodrest⟩ := hnod
  have hname : name ∉ fieldNames rest := by simpa using hnotmem
  simp only [adequateFields, Bool.and_eq_true] at haf
  obtain ⟨haf1, haf2⟩ := haf
  simp only [hf] at haf2
  obtain ⟨hA, hB, hC⟩ := IH1 hb haf1 lv w f' hf
  have hbd : ∀ b ∈ List.drop w d, b < 256 :=
    fun b hbm => hb b (List.drop_subset w d hbm)
  obtain ⟨hD, hE, hF, hG⟩ := IH2 hbd hnodrest haf2 attrs2 n2 fs' hrest
  subst hattrs
  subst hn
  refine ⟨?_, ?_, ?_, ?_⟩
  · rw [← hgs]
    simp [serNormFields, hA, hD]
  · have hdl : (List.drop w d).length = d.length - w := List.length_drop w d
    omega
  · simp [fieldNames, hF]
  · intro pre hpre
    rw [serializeFields]
    have hlook : List.lookup name (pre ++ (name, lv) :: attrs2) = some lv := by
      rw [lookup_append_of_none name pre _ (hpre name (by simp [fieldNames]))]
      simp [List.lookup]
    have hsplit : pre ++ (name, lv) :: attrs2 = (pre ++ [(name, lv)]) ++ attrs2 := by
      simp
    have hrest2 : serializeFields rest (pre ++ (name, lv) :: attrs2) =
        some (List.take n2 (List.drop w d)) := by
      rw [hsplit]
      apply hG
      intro nm hnm
      have hne : (nm == name) = false := by
        have : nm ≠ name := fun hEq => hname (hEq ▸ hnm)
        simpa using this
      rw [lookup_append_of_none nm pre _ (hpre nm (by simp [fieldNames, hnm]))]
      simp [List.lookup, hne]
    simp only [hlook, hC, hrest2]
    rw [← List.take_add]

theorem rt_list_zero (e : Field) (d : List Nat) : RTL e 0 d := by
  intro hb ha vs n g hde
  simp only [deserializeList, Option.some.injEq, Prod.mk.injEq] at hde
  obtain ⟨h1, h2, h3⟩ := hde
  subst h1
  subst h2
  refine ⟨?_, ?_, ?_⟩
  · rw [← h3]
  · omega
  · simp [serializeList]

theorem rt_list_succ_none (e : Field) (k : Nat) (d : List Nat)
    (he : deserialize e d = none) : RTL e (k + 1) d := by
  intro hb ha vs n g hde
  rw [deserializeList] at hde
  simp [he] at hde

theorem rt_list_succ_rest_none (e : Field) (k : Nat) (d : List Nat) (lv : Value)
    (w : Nat) (e1 : {g : Field // fsize g = fsize e})
    (he : deserialize e d = some (lv, w, e1))
    (hrest : deserializeList e1.1 k (List.drop w d) = none) : RTL e (k + 1) d := by
  intro hb ha vs n g hde
  rw [deserializeList] at hde
  simp [he, hrest] at hde

theorem rt_list_succ_some (e : Field) (k : Nat) (d : List Nat) (lv : Value)
    (w : Nat) (e1 : {g : Field // fsize g = fsize e})
    (he : deserialize e d = some (lv, w, e1)) (vs2 : List Value) (n2 : Nat)
    (e2 : {g : Field // fsize g = fsize e1.1})
    (hrest : deserializeList e1.1 k (List.drop w d) = some (vs2, n2, e2))
    (IH1 : RTF e d) (IH2 : RTL e1.1 k (List.drop w d)) : RTL e (k + 1) d := by
  intro hb ha vs n g hde
  rw [deserializeList] at hde
  simp only [he, hrest, Option.some.injEq, Prod.mk.injEq] at hde
  obtain ⟨hvs, hn, hg⟩ := hde
  simp only [adequateList, Bool.and_eq_true] at ha
  obtain ⟨ha1, ha2⟩ := ha
  simp only [he] at ha2
  obtain ⟨hA, hB, hC⟩ := IH1 hb ha1 lv w e1 he
  have hbd : ∀ b ∈ List.drop w d, b < 256 :=
    fun b hbm => hb b (List.drop_subset w d hbm)
  obtain ⟨hD, hE, hF⟩ := IH2 hbd ha2 vs2 n2 e2 hrest
  subst hvs
  subst hn
  refine ⟨?_, ?_, ?_⟩
  · rw [← hg]
    exact hD.trans hA
  · have hdl : (List.drop w d).length = d.length - w := List.length_drop w d
    omega
  · have hx : serializeList e vs2 = some (List.take n2 (List.drop w d)) := by
      rw [serializeList_congr hA.symm vs2]
      exact hF
    rw [serializeList]
    simp only [hC, hx]
    rw [← List.take_add]

/-- The round-trip invariant holds for every field on every adequate
buffer; proved by the mutual functional induction of `deserialize`. -/
theorem roundTrip : ∀ (f : Field) (d : List Nat), RTF f d :=
  deserialize.induct RTF RTFs RTL
    rt_byteArray
    rt_uintN
    rt_zstring_found
    rt_zstring_missing
    rt_dynString
    rt_revString
    (fun e k d h _ => rt_dynList_none e k d h)
    rt_dynList_some
    (fun lf ef d h _ => rt_EL_lf_none lf ef d h)
    (fun lf ef d w lf' L helem hlf _ _ => rt_EL_elem_none lf ef d w lf' L helem hlf)
    rt_EL_some
    (fun lf ef d lv w lf' hlf hnot _ => rt_EL_nonnat lf ef d lv w lf' hlf hnot)
    (fun fs d h _ => rt_serializer_none fs d h)
    rt_serializer_some
    rt_fields_nil
    (fun name f rest d h _ => rt_fields_cons_none name f rest d h)
    (fun name f rest d lv w f' h hrest _ _ =>
      rt_fields_cons_rest_none name f rest d lv w f' h hrest)
    rt_fields_cons_some
    rt_list_zero
    (fun e k d h _ => rt_list_succ_none e k d h)
    (fun e k d lv w e1 he hrest _ _ => rt_list_succ_rest_none e k d lv w e1 he hrest)
    rt_list_succ_some

/-- C3 (counterexample): decoding a fixed-width field from a buffer with
fewer bytes than the declared width does not fail with an OutOfBounds
error — it succeeds: `UInt16Field` decodes the empty buffer to `0` and
`ByteArrayField(4)` decodes it to the empty byte string, both still
reporting the full declared width as consumed. -/
theorem c3_short_buffer_succeeds :
    (deserialize (.uintN 2) []).map (fun r => (r.1, r.2.1)) = some (.vNat 0, 2)
    ∧ (deserialize (.byteArray 4 none) []).map (fun r => (r.1, r.2.1)) =
        some (.vBytes [], 4) := by
  constructor
  · simp [deserialize, fromBytesLE]
  · simp [deserialize]

/-- C3 (amended): fixed-width primitive decode never fails.  On a buffer of
at least `n` bytes, `ByteArrayField` reads exactly the first `n` bytes and
`UInt16Field`/`UInt32Field` read exactly the first `n` bytes as a
little-endian integer, reporting `n` consumed; on a shorter buffer they
read all available bytes but still report `n` consumed. -/
theorem c3_fixed_width_reads (n : Nat) (m : Option (List Nat)) (d : List Nat) :
    (deserialize (.byteArray n m) d).map (fun r => (r.1, r.2.1)) =
      some (.vBytes (List.take n d), n)
    ∧ (deserialize (.uintN n) d).map (fun r => (r.1, r.2.1)) =
      some (.vNat (fromBytesLE (List.take n d)), n)
    ∧ (n ≤ d.length → (List.take n d).length = n) := by
  refine ⟨by simp [deserialize], by simp [deserialize], fun h => by simp [List.length_take, h]⟩

theorem c3_fixed_width_reads_witness :
    (deserialize (.byteArray 2 none) [7, 8, 9]).map (fun r => (r.1, r.2.1)) =
      some (.vBytes (List.take 2 [7, 8, 9]), 2)
    ∧ (List.take 2 [7, 8, 9]).length = 2 := by
  have h := c3_fixed_width_reads 2 none [7, 8, 9]
  exact ⟨h.1, h.2.2 (by decide)⟩

/-- C6: `UInt16Field`/`UInt32Field` decode interprets the bytes read as a
little-endian unsigned integer (`fromBytesLE` is the positional base-256
little-endian value); encode produces the `n` little-endian bytes of a
value that fits the width, and fails (`OverflowError`) on a value that
does not. -/
theorem c6_uint_little_endian :
    (∀ (w : Nat) (d : List Nat),
       (deserialize (.uintN w) d).map (fun r => (r.1, r.2.1)) =
         some (.vNat (fromBytesLE (List.take w d)), w))
    ∧ (∀ bs : List Nat,
        fromBytesLE bs = ∑ i ∈ Finset.range bs.length, bs.getD i 0 * 256 ^ i)
    ∧ (∀ (w v : Nat), v < 256 ^ w →
        ∃ bs, serialize (.uintN w) (.vNat v) = some bs ∧ bs.length = w ∧
          fromBytesLE bs = v)
    ∧ (∀ (w v : Nat), 256 ^ w ≤ v → serialize (.uintN w) (.vNat v) = none) := by
  refine ⟨fun w d => by simp [deserialize], fromBytesLE_eq_sum, ?_, ?_⟩
  · intro w v h
    refine ⟨natToBytesLE w v, ?_, natToBytesLE_length w v, fromBytesLE_natToBytesLE w v h⟩
    simp [serialize, toBytesLE, h]
  · intro w v h
    simp [serialize, toBytesLE]
    omega

theorem c6_uint_little_endian_witness :
    (∃ bs, serialize (.uintN 2) (.vNat 513) = some bs ∧ bs.length = 2 ∧
      fromBytesLE bs = 513)
    ∧ serialize (.uintN 2) (.vNat 65536) = none :=
  ⟨c6_uint_little_endian.2.2.1 2 513 (by norm_num),
   c6_uint_little_endian.2.2.2 2 65536 (by norm_num)⟩

/-- C7: `ZStringField` decode fails (`MalformedInput`: the tuple unpacking
of `data.split` raises) when the buffer has no zero byte; otherwise it
returns exactly the bytes strictly before the first zero byte and reports
their count plus one (the terminator) as consumed; encode appends exactly
one zero byte after the text bytes. -/
theorem c7_zstring :
    (∀ d : List Nat, (0 : Nat) ∉ d → deserialize .zstring d = none)
    ∧ (∀ d : List Nat, (0 : Nat) ∈ d →
        (deserialize .zstring d).map (fun r => (r.1, r.2.1)) =
          some (.vStr (d.takeWhile (fun x => x != 0)),
                (d.takeWhile (fun x => x != 0)).length + 1)
        ∧ (∀ b ∈ d.takeWhile (fun x => x != 0), b ≠ 0)
        ∧ List.take ((d.takeWhile (fun x => x != 0)).length + 1) d =
            d.takeWhile (fun x => x != 0) ++ [0])
    ∧ (∀ s : List Nat, serialize .zstring (.vStr s) = some (s ++ [0])) := by
  refine ⟨fun d h => by simp [deserialize, h], ?_, fun s => by simp [serialize]⟩
  intro d h
  exact ⟨by simp [deserialize, h], mem_zstringPre d, zstring_take d h⟩

theorem c7_zstring_witness :
    deserialize .zstring [65, 66] = none
    ∧ (deserialize .zstring [65, 66, 0, 9]).map (fun r => (r.1, r.2.1)) =
        some (.vStr ([65, 66, 0, 9].takeWhile (fun x => x != 0)),
              ([65, 66, 0, 9].takeWhile (fun x => x != 0)).length + 1) :=
  ⟨c7_zstring.1 [65, 66] (by decide),
   (c7_zstring.2.1 [65, 66, 0, 9] (by decide)).1⟩

/-- C8 (counterexample): `ByteArrayField.serialize` does not fail fast on a
value whose length differs from the declared length — it silently returns
`obj[:length]`: encoding the empty byte string with a 4-byte field
succeeds and yields 0 bytes, not 4. -/
theorem c8_short_value_not_rejected :
    serialize (.byteArray 4 none) (.vBytes []) = some []
    ∧ ([] : List Nat).length ≠ 4 := by
  constructor
  · simp [serialize]
  · decide

/-- C8 (amended): `ByteArrayField.serialize` returns `obj[:length]` and
never fails: a longer value is silently truncated to exactly `length`
bytes, a shorter value is returned unchanged (producing fewer than
`length` bytes); the output has exactly `length` bytes only when the value
has at least `length` bytes. -/
theorem c8_byte_array_serialize (n : Nat) (m : Option (List Nat)) (bs : List Nat) :
    serialize (.byteArray n m) (.vBytes bs) = some (List.take n bs)
    ∧ (List.take n bs).length = min n bs.length
    ∧ (n ≤ bs.length → (List.take n bs).length = n) := by
  refine ⟨by simp [serialize], by simp [List.length_take], fun h => by simp [List.length_take, h]⟩

theorem c8_byte_array_serialize_witness :
    serialize (.byteArray 2 none) (.vBytes [1, 2, 3]) = some (List.take 2 [1, 2, 3])
    ∧ (List.take 2 [1, 2, 3]).length = 2 := by
  have h := c8_byte_array_serialize 2 none [1, 2, 3]
  exact ⟨h.1, h.2.2 (by decide)⟩

/-- C10: `DynamicListField.serialize` ignores the field's stored count
entirely: the output is the same for any stored count, equals the loop
`serializeList` over the input list, and — when every element encodes —
is the concatenation of the element encodings, one per list element. -/
theorem c10_serialize_ignores_count :
    (∀ (e : Field) (k1 k2 : Nat) (vs : List Value),
       serialize (.dynList e k1) (.vList vs) = serialize (.dynList e k2) (.vList vs))
    ∧ (∀ (e : Field) (k : Nat) (vs : List Value),
       serialize (.dynList e k) (.vList vs) = serializeList e vs)
    ∧ (∀ (e : Field) (vs : List Value) (bs : List (List Nat)),
       bs.length = vs.length →
       (∀ p ∈ vs.zip bs, serialize e p.1 = some p.2) →
       serializeList e vs = some bs.flatten) := by
  have key : ∀ (e : Field) (vs : List Value) (bs : List (List Nat)),
      bs.length = vs.length →
      (∀ p ∈ vs.zip bs, serialize e p.1 = some p.2) →
      serializeList e vs = some bs.flatten := by
    intro e vs
    induction vs with
    | nil =>
      intro bs hlen hzip
      cases bs with
      | nil => simp [serializeList]
      | cons b bs' => simp at hlen
    | cons v vs ih =>
      intro bs hlen hzip
      cases bs with
      | nil => simp at hlen
      | cons b bs' =>
        have hhead : serialize e v = some b := hzip (v, b) (by simp)
        have htail : serializeList e vs = some bs'.flatten := by
          apply ih bs' (by simpa using hlen)
          intro p hp
          exact hzip p (by simp [hp])
        rw [serializeList]
        simp [hhead, htail]
  exact ⟨fun e k1 k2 vs => by simp [serialize],
         fun e k vs => by simp [serialize], key⟩

theorem c10_serialize_ignores_count_witness :
    serializeList (.uintN 1) [.vNat 7, .vNat 8] =
      some ([[7], [8]] : List (List Nat)).flatten := by
  apply c10_serialize_ignores_count.2.2 (.uintN 1) [.vNat 7, .vNat 8] [[7], [8]] (by decide)
  intro p hp
  simp only [List.zip_cons_cons, List.zip_nil_right, List.mem_cons,
    List.not_mem_nil, or_false] at hp
  rcases hp with h | h <;> subst h <;> simp [serialize, toBytesLE, natToBytesLE]

theorem getLength_setLength {f : Field} (h : (getLength f).isSome = true) (L : Nat) :
    getLength (setLength f L) = some L := by
  cases f
  all_goals try simp [getLength] at h
  all_goals simp [setLength, getLength]

/-- No `deserialize` writes its own object's `length` attribute: the
post-call state always carries the same `length` as the state the call
started from. -/
theorem getLength_deserialize : ∀ (f : Field) (d : List Nat) (v : Value) (m : Nat)
    (g : {g : Field // fsize g = fsize f}), deserialize f d = some (v, m, g) →
    getLength g.1 = getLength f := by
  intro f d v m g hde
  cases f with
  | byteArray n mm =>
    simp only [deserialize, Option.some.injEq, Prod.mk.injEq] at hde
    rw [← hde.2.2]
  | uintN n =>
    simp only [deserialize, Option.some.injEq, Prod.mk.injEq] at hde
    rw [← hde.2.2]
  | zstring =>
    by_cases h0 : (0 : Nat) ∈ d
    · simp only [deserialize, if_pos h0, Option.some.injEq, Prod.mk.injEq] at hde
      rw [← hde.2.2]
    · simp [deserialize, h0] at hde
  | dynString n =>
    simp only [deserialize, Option.some.injEq, Prod.mk.injEq] at hde
    rw [← hde.2.2]
  | revString n =>
    simp only [deserialize, Option.some.injEq, Prod.mk.injEq] at hde
    rw [← hde.2.2]
  | dynList e k =>
    rw [deserialize] at hde
    cases hl : deserializeList e k d with
    | none => simp [hl] at hde
    | some r =>
      obtain ⟨vs, n2, g'⟩ := r
      simp only [hl, Option.some.injEq, Prod.mk.injEq] at hde
      rw [← hde.2.2]
      simp [getLength]
  | encodedLength lf ef =>
    rw [deserialize] at hde
    cases h1 : deserialize lf d with
    | none => simp [h1] at hde
    | some r =>
      obtain ⟨lv, w, lf'⟩ := r
      cases lv with
      | vNat L =>
        cases h2 : deserialize (setLength ef L) (List.drop w d) with
        | none => simp [h1, h2] at hde
        | some r2 =>
          obtain ⟨v2, m2, ef'⟩ := r2
          simp only [h1, h2, Option.some.injEq, Prod.mk.injEq] at hde
          rw [← hde.2.2]
          simp [getLength]
      | vBytes bs => simp [h1] at hde
      | vStr s => simp [h1] at hde
      | vList vs => simp [h1] at hde
      | vRecord attrs => simp [h1] at hde
  | serializer fs =>
    rw [deserialize] at hde
    cases hl : deserializeFields fs d with
    | none => simp [hl] at hde
    | some r =>
      obtain ⟨attrs, n2, fs'⟩ := r
      simp only [hl, Option.some.injEq, Prod.mk.injEq] at hde
      rw [← hde.2.2]
      simp [getLength]

/-- C4: `EncodedLengthField` over a `UInt16Field`/`UInt32Field` of width
`w`: decode first decodes the width-`w` length prefix, assigns its value
into the element field's `length` slot (`setLength`), decodes the element
against the remaining buffer, and reports `w` plus the element's consumed
bytes; encode writes the length field's encoding of `len(value)`
immediately followed by the element field's encoding of the value. -/
theorem c4_encoded_length :
    (∀ (w : Nat) (ef : Field) (d : List Nat) (v : Value) (m : Nat)
       (g : {g : Field // fsize g = fsize (setLength ef (fromBytesLE (List.take w d)))}),
       deserialize (setLength ef (fromBytesLE (List.take w d))) (List.drop w d) =
         some (v, m, g) →
       ∃ g2 : {g2 : Field // fsize g2 = fsize (Field.encodedLength (.uintN w) ef)},
         deserialize (.encodedLength (.uintN w) ef) d = some (v, w + m, g2)
         ∧ g2.1 = .encodedLength (.uintN w) g.1)
    ∧ (∀ (w : Nat) (ef : Field) (v : Value) (L : Nat) (a b : List Nat),
        valueLen v = some L → serialize (.uintN w) (.vNat L) = some a →
        serialize ef v = some b →
        serialize (.encodedLength (.uintN w) ef) v = some (a ++ b)) := by
  constructor
  · intro w ef d v m g hel
    refine ⟨⟨.encodedLength (.uintN w) g.1, by simp [fsize, g.2, fsize_setLength]⟩, ?_, rfl⟩
    rw [deserialize]
    have hlf : deserialize (.uintN w) d =
        some (.vNat (fromBytesLE (List.take w d)), w, ⟨.uintN w, rfl⟩) := by
      simp [deserialize]
    simp only [hlf, hel]
  · intro w ef v L a b h1 h2 h3
    simp [serialize, h1, h2, h3]

theorem c4_encoded_length_witness :
    (∃ g2 : {g2 : Field //
        fsize g2 = fsize (Field.encodedLength (.uintN 2) (.dynString 9))},
      deserialize (.encodedLength (.uintN 2) (.dynString 9)) [3, 0, 65, 66, 67] =
        some (.vStr [65, 66, 67], 2 + 3, g2)
      ∧ g2.1 = .encodedLength (.uintN 2) (.dynString 3))
    ∧ serialize (.encodedLength (.uintN 2) (.dynString 0)) (.vStr [65]) =
        some ([1, 0] ++ [65]) := by
  constructor
  · have h := c4_encoded_length.1 2 (.dynString 9) [3, 0, 65, 66, 67]
      (.vStr [65, 66, 67]) 3 ⟨.dynString 3, by simp [setLength]⟩
      (by simp [setLength, deserialize, fromBytesLE])
    exact h
  · exact c4_encoded_length.2 2 (.dynString 0) (.vStr [65]) 1 [1, 0] [65]
      (by simp [valueLen])
      (by simp [serialize, toBytesLE, natToBytesLE])
      (by simp [serialize])

/-- C5: `DynamicListField` with governing count `k`: decode runs the
element decode exactly `k` times against successive remaining-buffer
positions (each iteration dropping the previous iteration's consumed
bytes), returns a sequence of exactly `k` elements, and reports consumed
bytes equal to the sum of the per-element consumptions; `k = 0` yields the
empty sequence and zero consumed bytes. -/
theorem c5_dynamic_list :
    (∀ (e : Field) (d : List Nat),
       (deserialize (.dynList e 0) d).map (fun r => (r.1, r.2.1)) =
         some (.vList [], 0))
    ∧ (∀ (e : Field) (k : Nat) (d : List Nat) (vs : List Value) (n : Nat)
        (g : {g : Field // fsize g = fsize e}),
        deserializeList e k d = some (vs, n, g) → vs.length = k)
    ∧ (∀ (e : Field) (k : Nat) (d : List Nat) (vs : List Value) (n : Nat)
        (g : {g : Field // fsize g = fsize e}),
        deserializeList e k d = some (vs, n, g) →
          ∃ g2 : {g2 : Field // fsize g2 = fsize (Field.dynList e k)},
            deserialize (.dynList e k) d = some (.vList vs, n, g2)
            ∧ g2.1 = .dynList g.1 k)
    ∧ (∀ (e : Field) (k : Nat) (d : List Nat) (v : Value) (m : Nat)
        (e1 : {g : Field // fsize g = fsize e}) (vs : List Value) (n : Nat)
        (e2 : {g : Field // fsize g = fsize e1.1}),
        deserialize e d = some (v, m, e1) →
        deserializeList e1.1 k (List.drop m d) = some (vs, n, e2) →
        deserializeList e (k + 1) d = some (v :: vs, m + n, ⟨e2.1, e2.2.trans e1.2⟩)) := by
  refine ⟨?_, ?_, ?_, ?_⟩
  · intro e d
    simp [deserialize, deserializeList]
  · intro e k d vs n g h
    exact deserializeList_length k e d vs n g h
  · intro e k d vs n g h
    refine ⟨⟨.dynList g.1 k, by simp [fsize, g.2]⟩, ?_, rfl⟩
    rw [deserialize]
    simp only [h]
  · intro e k d v m e1 vs n e2 h1 h2
    rw [deserializeList]
    simp only [h1, h2]

theorem c5_dynamic_list_witness :
    ([Value.vNat 7, Value.vNat 8].length = 2)
    ∧ (∃ g2 : {g2 : Field // fsize g2 = fsize (Field.dynList (.uintN 1) 2)},
        deserialize (.dynList (.uintN 1) 2) [7, 8, 9] =
          some (.vList [.vNat 7, .vNat 8], 2, g2)
        ∧ g2.1 = .dynList (.uintN 1) 2) := by
  have hlist : deserializeList (.uintN 1) 2 [7, 8, 9] =
      some ([.vNat 7, .vNat 8], 2, ⟨.uintN 1, rfl⟩) := by
    simp [deserializeList, deserialize, fromBytesLE]
  constructor
  · exact c5_dynamic_list.2.1 (.uintN 1) 2 [7, 8, 9] [.vNat 7, .vNat 8] 2
      ⟨.uintN 1, rfl⟩ hlist
  · exact c5_dynamic_list.2.2.1 (.uintN 1) 2 [7, 8, 9] [.vNat 7, .vNat 8] 2
      ⟨.uintN 1, rfl⟩ hlist

/-- C9: after `EncodedLengthField.deserialize` returns, the wrapped element
field object (for any element class with a `length` attribute) still holds
the decoded length prefix in its `length` slot: the mutation performed
before the element decode is never undone, so the post-call element state —
the object a later direct decode would run on — reports the last prefix
decoded through it. -/
theorem c9_mutation_persists (w : Nat) (ef : Field) (d : List Nat)
    (hslot : (getLength ef).isSome = true) (v : Value) (n : Nat)
    (g : {g : Field // fsize g = fsize (Field.encodedLength (.uintN w) ef)})
    (hde : deserialize (.encodedLength (.uintN w) ef) d = some (v, n, g)) :
    ∃ ef2 : Field, g.1 = .encodedLength (.uintN w) ef2
      ∧ getLength ef2 = some (fromBytesLE (List.take w d)) := by
  rw [deserialize] at hde
  have hlf : deserialize (.uintN w) d =
      some (.vNat (fromBytesLE (List.take w d)), w, ⟨.uintN w, rfl⟩) := by
    simp [deserialize]
  simp only [hlf] at hde
  cases hel : deserialize (setLength ef (fromBytesLE (List.take w d))) (List.drop w d) with
  | none => simp [hel] at hde
  | some r =>
    obtain ⟨v2, m2, ef'⟩ := r
    simp only [hel, Option.some.injEq, Prod.mk.injEq] at hde
    refine ⟨ef'.1, ?_, ?_⟩
    · rw [← hde.2.2]
    · rw [getLength_deserialize _ _ _ _ _ hel]
      exact getLength_setLength hslot _

theorem c9_mutation_persists_witness :
    ∃ ef2 : Field,
      Field.encodedLength (.uintN 2) (.dynString 3) = .encodedLength (.uintN 2) ef2
      ∧ getLength ef2 = some (fromBytesLE (List.take 2 [3, 0, 65, 66, 67])) := by
  have h := c9_mutation_persists 2 (.dynString 7) [3, 0, 65, 66, 67]
    (by simp [getLength]) (.vStr [65, 66, 67]) 5
    ⟨.encodedLength (.uintN 2) (.dynString 3), by simp [fsize]⟩
    (by simp [deserialize, fromBytesLE, setLength])
  exact h

/-- C2 (counterexample): the round-trip law fails as stated, because decode
also succeeds on buffers shorter than a fixed-width read: `UInt16Field`
decodes the empty buffer to `0` consuming 2, but re-encoding `0` yields
`[0, 0]`, which is not the consumed prefix `[][:2] = []`. -/
theorem c2_round_trip_violated :
    (deserialize (.uintN 2) []).map (fun r => (r.1, r.2.1)) = some (.vNat 0, 2)
    ∧ serialize (.uintN 2) (.vNat 0) = some [0, 0]
    ∧ List.take 2 ([] : List Nat) = []
    ∧ ([0, 0] : List Nat) ≠ [] := by
  refine ⟨?_, ?_, by simp, by simp⟩
  · simp [deserialize, fromBytesLE]
  · simp [serialize, toBytesLE, natToBytesLE]

/-- C2 (amended): for every field built with the repository's
length-prefixed element shapes and every byte buffer (entries < 256) that
is `adequate` — every fixed-width read fully in bounds, schema names
distinct — a successful decode re-encodes (through the post-decode field
state) to exactly the consumed prefix of the buffer, and the consumed
count equals the length of the re-encoded bytes. -/
theorem c2_round_trip (f : Field) (d : List Nat) (hb : ∀ b ∈ d, b < 256)
    (ha : adequate f d = true) (v : Value) (n : Nat)
    (g : {g : Field // fsize g = fsize f}) (hde : deserialize f d = some (v, n, g)) :
    serialize g.1 v = some (List.take n d) ∧ (List.take n d).length = n := by
  obtain ⟨h1, h2, h3⟩ := roundTrip f d hb ha v n g hde
  constructor
  · rw [← serialize_serNorm g.1 v, h1, serialize_serNorm f v]
    exact h3
  · simp [List.length_take, h2]

theorem c2_round_trip_witness :
    serialize (.encodedLength (.uintN 2) (.dynString 2)) (.vStr [65, 66]) =
      some (List.take 4 [2, 0, 65, 66])
    ∧ (List.take 4 ([2, 0, 65, 66] : List Nat)).length = 4 := by
  have h := c2_round_trip (.encodedLength (.uintN 2) (.dynString 0)) [2, 0, 65, 66]
    (by decide)
    (by simp [adequate, adequateList, goodELElem, deserialize, fromBytesLE, setLength])
    (.vStr [65, 66]) 4
    ⟨.encodedLength (.uintN 2) (.dynString 2), by simp [fsize]⟩
    (by simp [deserialize, fromBytesLE, setLength])
  exact h

/-- The 52-byte buffer shaped like a `documentheader` record whose four
magic bytes are all wrong (zero): 44 bytes of fixed fields, a zero
dependency count, and a zero attribute count. -/
def zeros52 : List Nat :=
  [0, 0, 0, 0, 0, 0, 0, 0, 0, 0, 0, 0, 0, 0, 0, 0, 0, 0, 0, 0, 0, 0, 0, 0, 0, 0,
   0, 0, 0, 0, 0, 0, 0, 0, 0, 0, 0, 0, 0, 0, 0, 0, 0, 0, 0, 0, 0, 0, 0, 0, 0, 0]

/-- C1 (the code, at the failing input): decoding a `documentheader` buffer
whose `map_magic` is not `H2CS` does NOT fail with `ValidationFailed` — it
returns the complete record, because `Serializer.deserialize` never invokes
`Field.validate` on any decoded value, even though the magic fields carry
`file_magic_validator` validators that reject the decoded bytes (second
conjunct). -/
theorem c1_wrong_magic_still_decodes :
    (deserialize (.serializer DocumentHeaderSerializer) zeros52).map
        (fun r => (r.1, r.2.1)) =
      some (.vRecord [("map_magic", .vBytes [0, 0, 0, 0]),
        ("unk1", .vBytes [0, 0, 0, 0]),
        ("game_magic", .vBytes [0, 0, 0, 0]),
        ("unk2", .vBytes [0, 0, 0, 0]),
        ("unk3", .vBytes [0, 0, 0, 0, 0, 0, 0, 0]),
        ("unk4", .vBytes [0, 0, 0, 0, 0, 0, 0, 0, 0, 0, 0, 0, 0, 0, 0, 0, 0, 0, 0, 0]),
        ("dependencies", .vList []),
        ("attribs", .vList [])], 52)
    ∧ validate (.byteArray 4 (some magicH2CS)) (.vBytes [0, 0, 0, 0]) = false := by
  constructor
  · simp [zeros52, DocumentHeaderSerializer, deserialize, deserializeFields,
      deserializeList, setLength, fromBytesLE]
  · simp [validate, file_magic_validator, magicH2CS]

end SC2Map
